import Mathlib

/-!
Verification development for the youtube-dl web-app server
(`youtube-dl-server.py`).  The Python source is shallowly embedded:
pure functions become Lean functions on `List Char` / `String`,
the download worker becomes a recursive function over the queue contents
with explicit filesystem state and effect oracles, and Python dicts
become association lists.
-/

/-- Characters that Python `str.strip` removes (the whitespace characters
that can occur in the data handled by this program). -/
def isSpaceChar (c : Char) : Bool :=
  c = ' ' || c = '\t' || c = '\n' || c = '\r'

/-- Remove trailing whitespace characters (right half of Python `strip`). -/
def dropTrailingSpaces : List Char → List Char
  | [] => []
  | c :: t =>
    let r := dropTrailingSpaces t
    if r = [] && isSpaceChar c then [] else c :: r

/-- Python `str.strip`: remove leading and trailing whitespace. -/
def stripChars (l : List Char) : List Char :=
  dropTrailingSpaces (l.dropWhile isSpaceChar)

/-- Net effect of the Python loop
`while "  " in filename: filename = filename.replace("  ", " ")`:
every maximal run of spaces becomes a single space. -/
def collapseSpaces : List Char → List Char
  | [] => []
  | [c] => [c]
  | c1 :: c2 :: rest =>
    if c1 = ' ' && c2 = ' ' then collapseSpaces (c2 :: rest)
    else c1 :: collapseSpaces (c2 :: rest)

/-- `true` iff the list contains two adjacent space characters. -/
def hasDblSpace : List Char → Bool
  | c1 :: c2 :: rest => (c1 = ' ' && c2 = ' ') || hasDblSpace (c2 :: rest)
  | _ => false

/-- Python `s[:-n]` for `n ≥ 1`: drop the last `n` characters
(empty result when `n` exceeds the length). -/
def cutRight (l : List Char) (n : Nat) : List Char :=
  l.take (l.length - n)

/-- Association-list lookup (Python `dict` access / `dict.get`). -/
def alookup {α : Type} : List (String × α) → String → Option α
  | [], _ => none
  | p :: t, k => if p.1 = k then some p.2 else alookup t k

/-- Helper for `dedupFirst`: drop keys already seen. -/
def dedupFirstAux (seen : List String) : List String → List String
  | [] => []
  | k :: t =>
    if k ∈ seen then dedupFirstAux seen t
    else k :: dedupFirstAux (k :: seen) t

/-- Key list with duplicates removed, keeping the first occurrence.
Models the deterministic (per-process) iteration order of the Python
`set` of template keys. -/
def dedupFirst (l : List String) : List String := dedupFirstAux [] l

/-- A piece of a Python format-string template: literal text or a named
replacement field.  `'{title} [{id}]'` is
`[field "title", lit " [", field "id", lit "]"]`. -/
inductive TmplPart where
  | lit (s : List Char)
  | field (key : String)
deriving DecidableEq

/-- A format-string template, as parsed by `string.Formatter().parse`. -/
def Tmpl : Type := List TmplPart

/-- The literal (non-placeholder) characters of a template. -/
def literalChars (tmpl : Tmpl) : List Char :=
  tmpl.foldr (fun p acc => match p with | .lit s => s ++ acc | .field _ => acc) []

/-- Total length of the literal text of a template. -/
def literalLen (tmpl : Tmpl) : Nat := (literalChars tmpl).length

/-- The named keys referenced by a template, deduplicated. -/
def tmplKeys (tmpl : Tmpl) : List String :=
  dedupFirst (tmpl.filterMap fun p => match p with | .lit _ => none | .field k => some k)

/-- `SanitizedFilenameTmpl.whitelist`:
`"-_.() %s%s'\"" % (string.ascii_letters, string.digits)`.
(The apostrophe and double-quote are written by code point.) -/
def whitelist : List Char :=
  ("-_.() " ++ "abcdefghijklmnopqrstuvwxyz" ++ "ABCDEFGHIJKLMNOPQRSTUVWXYZ"
    ++ "0123456789").toList ++ [Char.ofNat 39, Char.ofNat 34]

/-- `SanitizedFilenameTmpl.char_limit`. -/
def charLimit : Nat := 128

/-- `SanitizedFilenameTmpl._sanitize`: NFKD-normalize and encode to ASCII
dropping what does not fit (modelled as dropping non-ASCII code points;
the subsequent whitelist filter makes the claims insensitive to the exact
decomposition), keep only whitelisted characters, and strip. -/
def sanitizeVal (v : List Char) : List Char :=
  stripChars (((v.filter fun c => decide (c.toNat < 128)).filter
    fun c => decide (c ∈ whitelist)))

/-- `self._tmpl.format(**kwargs)`: substitute the values for the fields
(missing keys substitute the empty string; in `format` every referenced
key is present). -/
def render (tmpl : Tmpl) (kw : List (String × List Char)) : List Char :=
  tmpl.foldr
    (fun p acc => match p with
      | .lit s => s ++ acc
      | .field k => ((alookup kw k).getD []) ++ acc)
    []

/-- Total length of the values of an association list. -/
def sumLen (kw : List (String × List Char)) : Nat :=
  (kw.map fun p => p.2.length).sum

/-- Python `max(values, key=len)`: the first value of maximal length
(ties keep the earlier element). -/
def maxByLen : List (List Char) → List Char
  | [] => []
  | v :: vs => vs.foldl (fun a w => if a.length < w.length then w else a) v

/-- One iteration of the length-reduction loop body in
`SanitizedFilenameTmpl.format`: pick the longest value, cut `overflow`
characters from its end, strip, and substitute the shortened value for
every key whose value equals the longest value. -/
def shortenStep (kw : List (String × List Char)) (overflow : Nat) :
    List (String × List Char) :=
  let longest := maxByLen (kw.map fun p => p.2)
  let shortened := stripChars (cutRight longest overflow)
  kw.map fun p => if p.2 = longest then (p.1, shortened) else p

/-- The `while len(filename) > self.char_limit` loop of
`SanitizedFilenameTmpl.format`, with explicit fuel.  Fuel exhaustion and
the `ValueError` that Python `max` raises on an empty dict both give
`none`. -/
def fmtLoop (tmpl : Tmpl) : Nat → List (String × List Char) → List Char →
    Option (List Char)
  | 0, _, _ => none
  | fuel + 1, kw, filename =>
    if filename.length ≤ charLimit then some filename
    else
      match kw with
      | [] => none
      | _ :: _ =>
        let kw2 := shortenStep kw (filename.length - charLimit)
        fmtLoop tmpl fuel kw2 (render tmpl kw2)

/-- The sanitized keyword arguments built by `format`:
each referenced key mapped to its sanitized metadata value. -/
def sanitizedKwargs (tmpl : Tmpl) (kwargs : List (String × String)) :
    List (String × List Char) :=
  (tmplKeys tmpl).map fun k =>
    (k, sanitizeVal ((alookup kwargs k).getD "").toList)

/-- The candidate filename before any length reduction: substitution
followed by double-space collapse. -/
def candidate (tmpl : Tmpl) (kwargs : List (String × String)) : List Char :=
  collapseSpaces (render tmpl (sanitizedKwargs tmpl kwargs))

/-- `SanitizedFilenameTmpl.format` run with an explicit amount of fuel for
the length-reduction loop; `none` models non-termination (or the
`ValueError` from `max` on an empty dict). -/
def formatWithFuel (tmpl : Tmpl) (kwargs : List (String × String))
    (fuel : Nat) : Option (List Char) :=
  (fmtLoop tmpl fuel (sanitizedKwargs tmpl kwargs) (candidate tmpl kwargs)).map
    stripChars

/-- `SanitizedFilenameTmpl.format`, with fuel sufficient whenever the loop
terminates at all (one unit per character of sanitized metadata). -/
def formatTmpl (tmpl : Tmpl) (kwargs : List (String × String)) :
    Option (List Char) :=
  formatWithFuel tmpl kwargs (sumLen (sanitizedKwargs tmpl kwargs) + 1)

/-- `YDL_OUTPUT_TEMPLATE = '{title} [{id}]'`. -/
def ydlTmpl : Tmpl :=
  [TmplPart.field "title", TmplPart.lit " [".toList,
   TmplPart.field "id", TmplPart.lit "]".toList]

/-! ## Download worker (`dl_worker`) and queue items -/

/-- The payload of a queued download: the fields of the
`(ydl, username, url)` tuple that the claims depend on
(`ydl.params['outtmpl']`, `ydl.params['format']`,
`ydl.params['postprocessors']`). -/
structure JobData where
  outtmpl : String
  username : String
  url : String
  fmt : String
  postprocessors : List (List (String × String))
deriving DecidableEq

/-- An item of the `DL_Q` queue.  `submit_download` enqueues
`(ydl, username, url)` 3-tuples (`job`); `main` enqueues the 2-tuple
`(None, None)` (`tuple2None`); a 3-tuple whose first element is `None`
(`tuple3None`) is what the worker's `if ydl is None: return` tests for. -/
inductive QItem where
  | job (j : JobData)
  | tuple3None
  | tuple2None
deriving DecidableEq

/-- Worker thread status: `Running` while the loop is live (including
blocked on an empty queue), `Stopped` after `return`. -/
inductive WStatus where
  | Running
  | Stopped
deriving DecidableEq

/-- Observable event per queue item: `done` (logged
"Downloaded to ..."), `failed` (exception caught and logged), or
`unpackError` (the `ValueError` from unpacking a 2-tuple into
`ydl, username, url`, caught by the same handler). -/
inductive WEvent where
  | done (j : JobData)
  | failed (j : JobData)
  | unpackError
deriving DecidableEq

/-- Effect oracle for the worker's fallible external operations:
whether `ydl.download([url])` succeeds and whether `os.chown` succeeds
for a given job. -/
structure Eff where
  download : JobData → Bool
  chown : JobData → Bool

/-- Outcome of a worker run on (a snapshot of) the queue contents:
final status, final filesystem (the set of existing regular files,
as a list of paths), and the event log. -/
structure WRun where
  status : WStatus
  fs : List String
  events : List WEvent
deriving DecidableEq

/-- Body of the worker's `try:` block for a non-sentinel job:
delete the destination if it exists, run the download (on success the
file is written), then `chown` if the tenant has a configured uid.
A failed download or chown is the `.failed` event (exception caught). -/
def processJob (eff : Eff) (uidOf : String → Option Nat) (fs : List String)
    (j : JobData) : List String × WEvent :=
  let fs1 := if j.outtmpl ∈ fs then fs.filter (fun p => decide (p ≠ j.outtmpl)) else fs
  if eff.download j then
    if (uidOf j.username).isSome && !eff.chown j then
      (j.outtmpl :: fs1, WEvent.failed j)
    else (j.outtmpl :: fs1, WEvent.done j)
  else (fs1, WEvent.failed j)

/-- `dl_worker`, run over the queue contents.  An empty queue leaves the
worker `Running` (blocked in `DL_Q.get()`); a 3-tuple with `ydl is None`
makes it `return` (`Stopped`); the 2-tuple `(None, None)` raises
`ValueError` at unpacking, which the `except Exception` handler catches,
and the loop continues. -/
def dl_worker (eff : Eff) (uidOf : String → Option Nat) :
    List QItem → List String → WRun
  | [], fs => ⟨WStatus.Running, fs, []⟩
  | QItem.tuple3None :: _, fs => ⟨WStatus.Stopped, fs, []⟩
  | QItem.tuple2None :: rest, fs =>
    let r := dl_worker eff uidOf rest fs
    ⟨r.status, r.fs, WEvent.unpackError :: r.events⟩
  | QItem.job j :: rest, fs =>
    let pr := processJob eff uidOf fs j
    let r := dl_worker eff uidOf rest pr.1
    ⟨r.status, r.fs, pr.2 :: r.events⟩

/-- The jobs a worker starting on this queue will attempt: every
non-sentinel job before the first 3-tuple sentinel. -/
def pendingJobs : List QItem → List JobData
  | [] => []
  | QItem.tuple3None :: _ => []
  | QItem.tuple2None :: rest => pendingJobs rest
  | QItem.job j :: rest => j :: pendingJobs rest

/-- The jobs attempted according to an event log. -/
def attempts : List WEvent → List JobData
  | [] => []
  | WEvent.done j :: t => j :: attempts t
  | WEvent.failed j :: t => j :: attempts t
  | WEvent.unpackError :: t => attempts t

/-! ## Presets and `submit_download` -/

/-- `FORMATS`: preset token to YoutubeDL format selector. -/
def FORMATS : List (String × String) :=
  [("smallmp4", "mp4[height<=480]/best[ext=mp4]"),
   ("normalmp4", "mp4[height<=720]/best[ext=mp4]"),
   ("bestmp4", "bestvideo[ext=mp4]+bestaudio[ext=m4a]/best[ext=mp4]"),
   ("mp3", "bestaudio/best")]

/-- `POSTPROCESSORS`: a `defaultdict(list)` with a single explicit entry
for `mp3`; every other preset gets the empty list. -/
def POSTPROCESSORS (preset : String) : List (List (String × String)) :=
  if preset = "mp3" then
    [[("key", "FFmpegExtractAudio"), ("preferredcodec", "mp3"),
      ("preferredquality", "192")]]
  else []

/-- `EXTENSIONS`: preset token to output file extension. -/
def EXTENSIONS : List (String × String) :=
  [("smallmp4", "mp4"), ("normalmp4", "mp4"), ("bestmp4", "mp4"),
   ("mp3", "mp3")]

/-- Metadata returned by `ydl.extract_info(url, download=False)`,
restricted to the keys the output template references. -/
structure Info where
  title : String
  id : String
deriving DecidableEq

/-- A JSON-ish value of the descriptor dict that `submit_download`
returns. -/
inductive RVal where
  | s (v : String)
  | b (v : Bool)
  | null
deriving DecidableEq

/-- `submit_download(username, url, preset)`.  `defaultPreset` is the
`YDL_DEFAULT_PRESET` configuration, `outdirs` the `OUTDIRS` table,
`resolve` the outcome of the synchronous `ydl.extract_info` call, and
`q` the queue contents before the call.  Returns the descriptor dict
(as an association list, mirroring the dict literal in the source) and
the queue contents after the call. -/
def submit_download (defaultPreset : String) (outdirs : List (String × String))
    (resolve : Except String Info) (username url preset : String)
    (q : List QItem) : List (String × RVal) × List QItem :=
  let fmt := (alookup FORMATS preset).getD ((alookup FORMATS defaultPreset).getD "")
  match resolve with
  | Except.error _ =>
    ([("success", RVal.b false), ("url", RVal.s url), ("preset", RVal.s preset),
      ("format", RVal.s fmt), ("outfile", RVal.null)], q)
  | Except.ok info =>
    let ext := (alookup EXTENSIONS preset).getD "mp4"
    let fname := String.mk ((formatTmpl ydlTmpl
      [("title", info.title), ("id", info.id)]).getD [])
    let outfile := fname ++ "." ++ ext
    let outpath := ((alookup outdirs username).getD "") ++ outfile
    let j : JobData := ⟨outpath, username, url, fmt, POSTPROCESSORS preset⟩
    ([("success", RVal.b true), ("url", RVal.s url), ("preset", RVal.s preset),
      ("format", RVal.s fmt), ("outfile", RVal.s outfile)],
     q ++ [QItem.job j])

/-! ## Authorization (`is_authorized`) -/

/-- `is_authorized(username, token)`: returns the boolean outcome and the
number of seconds slept (`time.sleep(1)` on any mismatch, no sleep on
success).  The presented token is `Option String` because the routes pass
`params.get("token", None)`. -/
def is_authorized (tokens : List (String × String)) (username : String)
    (token : Option String) : Bool × Nat :=
  match alookup tokens username with
  | none => (false, 1)
  | some stored => if some stored = token then (true, 0) else (false, 1)

/-! ## Result retrieval route (`result_file`) -/

/-- Split a path into its `/`-separated pieces. -/
def splitSlash : List Char → List (List Char)
  | [] => [[]]
  | c :: t =>
    let r := splitSlash t
    if c = '/' then [] :: r
    else
      match r with
      | [] => [[c]]
      | h :: t2 => (c :: h) :: t2

/-- The path components as `pathlib` keeps them: empty pieces and `"."`
are dropped, `".."` is kept. -/
def pathComponents (l : List Char) : List (List Char) :=
  (splitSlash l).filter fun c => decide (c ≠ [] ∧ c ≠ ['.'])

/-- `pathlib.PurePosixPath(s).name`: the final path component, or the
empty string when there is none. -/
def basenameL (l : List Char) : List Char :=
  ((pathComponents l).getLast?).getD []

/-- String wrapper for `basenameL`. -/
def basenameStr (s : String) : String := String.mk (basenameL s.toList)

/-- Drop the `pathlib` suffix from a final path component:
`name[:rfind('.')]` when the last dot is at an index `i` with
`0 < i < len - 1`, else the name unchanged. -/
def dropExt (n : List Char) : List Char :=
  let r := (n.reverse.takeWhile fun c => decide (c ≠ '.')).length
  if r < n.length && decide (0 < n.length - r - 1) && decide (r ≠ 0) then
    n.take (n.length - r - 1)
  else n

/-- `Path(media).with_suffix('.log')` for a path whose final component is
nonempty: replace the extension of the final component by `.log`. -/
def withSuffixLog (media : String) : String :=
  let l := media.toList
  let b := basenameL l
  String.mk (l.take (l.length - b.length) ++ dropExt b ++ ".log".toList)

/-- Outcome of the `result_file` route: serve a file, 404, render the
HTML page (with or without a log-file link), or an uncaught exception
(HTTP 500). -/
inductive RouteRes where
  | file (path : String)
  | notFound
  | page (loglink : Bool)
  | serverError
deriving DecidableEq

/-- The `result_file` route.  `isFile` is the filesystem oracle for
`Path(...).is_file()`: `none` models an `OSError` (e.g. a pathologically
long name).  Inside the `try:` block, `OSError`/`KeyError` give 404; the
`ValueError` that `with_suffix` raises when the joined path has an empty
final component is not caught (HTTP 500), and neither is an `OSError`
from the log-file check in the page branch. -/
def result_file (outdirs : List (String × String))
    (isFile : String → Option Bool) (username filename download : String) :
    RouteRes :=
  match alookup outdirs username with
  | none => RouteRes.notFound
  | some outdir =>
    let name := basenameStr filename
    let media := outdir ++ name
    if basenameStr media = "" then RouteRes.serverError
    else
      match isFile media with
      | none => RouteRes.notFound
      | some ex =>
        if download = "true" then
          if ex then RouteRes.file media else RouteRes.notFound
        else
          if ex then RouteRes.page false
          else
            match isFile (withSuffixLog media) with
            | none => RouteRes.serverError
            | some lf => RouteRes.page lf

/-! ## Helper lemmas: characters and lists -/

theorem dropTrailingSpaces_length_le (l : List Char) :
    (dropTrailingSpaces l).length ≤ l.length := by
  induction l with
  | nil => simp [dropTrailingSpaces]
  | cons c t ih =>
    simp only [dropTrailingSpaces]
    split
    · simp
    · simpa using ih

theorem stripChars_length_le (l : List Char) :
    (stripChars l).length ≤ l.length :=
  le_trans (dropTrailingSpaces_length_le _) (List.dropWhile_sublist _).length_le

theorem dropTrailingSpaces_subset {c : Char} {l : List Char}
    (h : c ∈ dropTrailingSpaces l) : c ∈ l := by
  induction l with
  | nil => simp [dropTrailingSpaces] at h
  | cons d t ih =>
    simp only [dropTrailingSpaces] at h
    split at h
    · simp at h
    · rcases List.mem_cons.mp h with h1 | h2
      · exact h1 ▸ List.mem_cons_self _ _
      · exact List.mem_cons_of_mem _ (ih h2)

theorem stripChars_subset {c : Char} {l : List Char}
    (h : c ∈ stripChars l) : c ∈ l :=
  (List.dropWhile_sublist _).subset (dropTrailingSpaces_subset h)

theorem collapseSpaces_length_le (l : List Char) :
    (collapseSpaces l).length ≤ l.length := by
  induction l using collapseSpaces.induct with
  | case1 => simp [collapseSpaces]
  | case2 => simp [collapseSpaces]
  | case3 c1 c2 rest h ih =>
    simp only [collapseSpaces, h, if_true]
    exact le_trans ih (by simp)
  | case4 c1 c2 rest h ih =>
    simp only [collapseSpaces, h, if_false]
    simpa using ih

theorem collapseSpaces_subset {c : Char} {l : List Char}
    (h : c ∈ collapseSpaces l) : c ∈ l := by
  induction l using collapseSpaces.induct with
  | case1 => simp [collapseSpaces] at h
  | case2 => simpa [collapseSpaces] using h
  | case3 c1 c2 rest hc ih =>
    simp only [collapseSpaces, hc, if_true] at h
    exact List.mem_cons_of_mem _ (ih h)
  | case4 c1 c2 rest hc ih =>
    simp only [collapseSpaces, hc, if_false] at h
    rcases List.mem_cons.mp h with h1 | h2
    · exact h1 ▸ List.mem_cons_self _ _
    · exact List.mem_cons_of_mem _ (ih h2)

theorem collapseSpaces_head (l : List Char) :
    (collapseSpaces l).head? = l.head? := by
  induction l using collapseSpaces.induct with
  | case1 => rfl
  | case2 => rfl
  | case3 c1 c2 rest hc ih =>
    simp only [collapseSpaces, hc, if_true]
    have hc1 : c1 = ' ' := by
      rcases Bool.and_eq_true_iff.mp hc with ⟨h1, _⟩
      exact decide_eq_true_eq.mp h1
    have hc2 : c2 = ' ' := by
      rcases Bool.and_eq_true_iff.mp hc with ⟨_, h2⟩
      exact decide_eq_true_eq.mp h2
    rw [ih, List.head?_cons, List.head?_cons, hc1, hc2]
  | case4 c1 c2 rest hc ih =>
    simp [collapseSpaces, hc]

theorem collapseSpaces_noDbl (l : List Char) :
    hasDblSpace (collapseSpaces l) = false := by
  induction l using collapseSpaces.induct with
  | case1 => rfl
  | case2 => rfl
  | case3 c1 c2 rest hc ih =>
    simpa only [collapseSpaces, hc, if_true] using ih
  | case4 c1 c2 rest hc ih =>
    simp only [collapseSpaces, hc, if_false]
    have hh := collapseSpaces_head (c2 :: rest)
    rcases he : collapseSpaces (c2 :: rest) with _ | ⟨x, xs⟩
    · rfl
    · rw [he] at hh ih
      have hx : c2 = x := by simpa using hh.symm
      simp only [hasDblSpace, ih, Bool.or_false]
      rw [← hx]
      exact Bool.eq_false_iff.mpr hc

theorem hasDblSpace_tail {c : Char} {t : List Char}
    (h : hasDblSpace (c :: t) = false) : hasDblSpace t = false := by
  cases t with
  | nil => rfl
  | cons d t2 =>
    simp only [hasDblSpace, Bool.or_eq_false_iff] at h
    exact h.2

theorem hasDblSpace_append_left {xs ys : List Char}
    (h : hasDblSpace (xs ++ ys) = false) : hasDblSpace xs = false := by
  induction xs with
  | nil => rfl
  | cons x t ih =>
    cases t with
    | nil => rfl
    | cons x2 t2 =>
      simp only [List.cons_append, hasDblSpace, Bool.or_eq_false_iff] at h ⊢
      exact ⟨h.1, ih (by simpa using h.2)⟩

theorem hasDblSpace_dropWhile {p : Char → Bool} {l : List Char}
    (h : hasDblSpace l = false) : hasDblSpace (l.dropWhile p) = false := by
  induction l with
  | nil => rfl
  | cons c t ih =>
    rw [List.dropWhile_cons]
    split
    · exact ih (hasDblSpace_tail h)
    · exact h

theorem dropTrailingSpaces_prefix (l : List Char) :
    ∃ t, l = dropTrailingSpaces l ++ t := by
  induction l with
  | nil => exact ⟨[], rfl⟩
  | cons c t ih =>
    rcases ih with ⟨u, hu⟩
    simp only [dropTrailingSpaces]
    split
    · exact ⟨c :: t, rfl⟩
    · exact ⟨u, by rw [List.cons_append, ← hu]⟩

theorem hasDblSpace_stripChars {l : List Char}
    (h : hasDblSpace l = false) : hasDblSpace (stripChars l) = false := by
  have h1 : hasDblSpace (l.dropWhile isSpaceChar) = false := hasDblSpace_dropWhile h
  rcases dropTrailingSpaces_prefix (l.dropWhile isSpaceChar) with ⟨t, ht⟩
  rw [stripChars]
  exact hasDblSpace_append_left (ht ▸ h1)

/-! ## Helper lemmas: `maxByLen`, `cutRight`, `sumLen`, `alookup` -/

theorem maxByLen_foldl_cases (vs : List (List Char)) :
    ∀ a : List Char, (vs.foldl (fun a w => if a.length < w.length then w else a) a) = a ∨
      (vs.foldl (fun a w => if a.length < w.length then w else a) a) ∈ vs := by
  induction vs with
  | nil => intro a; exact Or.inl rfl
  | cons v t ih =>
    intro a
    simp only [List.foldl_cons]
    rcases ih (if a.length < v.length then v else a) with h | h
    · rw [h]
      split
      · exact Or.inr (List.mem_cons_self _ _)
      · exact Or.inl rfl
    · exact Or.inr (List.mem_cons_of_mem _ h)

theorem maxByLen_mem {l : List (List Char)} (h : l ≠ []) : maxByLen l ∈ l := by
  cases l with
  | nil => exact absurd rfl h
  | cons v vs =>
    rcases maxByLen_foldl_cases vs v with h1 | h1
    · rw [maxByLen, h1]; exact List.mem_cons_self _ _
    · exact List.mem_cons_of_mem _ h1

theorem maxByLen_foldl_ge (vs : List (List Char)) :
    ∀ a : List Char,
      a.length ≤ (vs.foldl (fun a w => if a.length < w.length then w else a) a).length ∧
      ∀ w ∈ vs, w.length ≤ (vs.foldl (fun a w => if a.length < w.length then w else a) a).length := by
  induction vs with
  | nil => intro a; exact ⟨le_refl _, by simp⟩
  | cons v t ih =>
    intro a
    simp only [List.foldl_cons]
    rcases ih (if a.length < v.length then v else a) with ⟨h1, h2⟩
    constructor
    · refine le_trans ?_ h1
      split
      · exact le_of_lt (by assumption)
      · exact le_refl _
    · intro w hw
      rcases List.mem_cons.mp hw with hw1 | hw2
      · subst hw1
        refine le_trans ?_ h1
        split
        · exact le_refl _
        · exact le_of_not_lt (by assumption)
      · exact h2 w hw2

theorem maxByLen_ge {l : List (List Char)} {w : List Char} (h : w ∈ l) :
    w.length ≤ (maxByLen l).length := by
  cases l with
  | nil => simp at h
  | cons v vs =>
    rcases List.mem_cons.mp h with h1 | h2
    · exact h1 ▸ (maxByLen_foldl_ge vs v).1
    · exact (maxByLen_foldl_ge vs v).2 w h2

theorem cutRight_length_lt {l : List Char} {n : Nat} (hl : l ≠ []) (hn : 0 < n) :
    (cutRight l n).length < l.length := by
  have hpos : 0 < l.length := List.length_pos.mpr hl
  rw [cutRight, List.length_take]
  exact lt_of_le_of_lt (min_le_left _ _) (Nat.sub_lt hpos hn)

theorem cutRight_subset {c : Char} {l : List Char} {n : Nat}
    (h : c ∈ cutRight l n) : c ∈ l :=
  List.mem_of_mem_take h

theorem sumLen_eq_zero {kw : List (String × List Char)} (h : sumLen kw = 0) :
    ∀ p ∈ kw, p.2 = [] := by
  intro p hp
  have := (List.sum_eq_zero_iff.mp h) p.2.length (List.mem_map.mpr ⟨p, hp, rfl⟩)
  exact List.length_eq_zero.mp this

theorem sumLen_ne_zero {kw : List (String × List Char)} (h : sumLen kw ≠ 0) :
    ∃ p ∈ kw, p.2 ≠ [] := by
  by_contra hc
  push_neg at hc
  exact h (by
    rw [sumLen, List.sum_eq_zero_iff]
    intro x hx
    rcases List.mem_map.mp hx with ⟨p, hp, hpx⟩
    rw [← hpx, hc p hp]
    rfl)

theorem alookup_mem {α : Type} {kw : List (String × α)} {k : String} {v : α}
    (h : alookup kw k = some v) : ∃ p ∈ kw, p.2 = v := by
  induction kw with
  | nil => simp [alookup] at h
  | cons p t ih =>
    simp only [alookup] at h
    split at h
    · exact ⟨p, List.mem_cons_self _ _, Option.some_injective _ h⟩
    · rcases ih h with ⟨q, hq, hqv⟩
      exact ⟨q, List.mem_cons_of_mem _ hq, hqv⟩

/-! ## Helper lemmas: the length-reduction step -/

theorem sumLen_subst_le (m s : List Char) (hms : s.length ≤ m.length) :
    ∀ kw : List (String × List Char),
      sumLen (kw.map fun p => if p.2 = m then (p.1, s) else p) ≤ sumLen kw := by
  intro kw
  induction kw with
  | nil => simp [sumLen]
  | cons p t ih =>
    simp only [List.map_cons, sumLen, List.sum_cons] at ih ⊢
    by_cases hp : p.2 = m
    · simp only [hp, if_true]
      exact Nat.add_le_add (hp ▸ hms) ih
    · simp only [hp, if_false]
      exact Nat.add_le_add_left ih _

theorem sumLen_subst_lt (m s : List Char) (hms : s.length < m.length) :
    ∀ kw : List (String × List Char), m ∈ kw.map (fun p => p.2) →
      sumLen (kw.map fun p => if p.2 = m then (p.1, s) else p) < sumLen kw := by
  intro kw
  induction kw with
  | nil => simp
  | cons p t ih =>
    intro hm
    simp only [List.map_cons, sumLen, List.sum_cons]
    by_cases hp : p.2 = m
    · simp only [hp, if_true]
      exact Nat.add_lt_add_of_lt_of_le (hp ▸ hms) (sumLen_subst_le m s (le_of_lt hms) t)
    · simp only [hp, if_false]
      have hmt : m ∈ t.map (fun p => p.2) := by
        rcases List.mem_cons.mp hm with h1 | h2
        · exact absurd h1.symm hp
        · exact h2
      exact Nat.add_lt_add_left (ih hmt) _

theorem shortenStep_sumLen_lt {kw : List (String × List Char)} {ov : Nat}
    (hkw : sumLen kw ≠ 0) (hov : 0 < ov) :
    sumLen (shortenStep kw ov) < sumLen kw := by
  rcases sumLen_ne_zero hkw with ⟨p, hp, hpne⟩
  have hvals : kw.map (fun p => p.2) ≠ [] := by
    intro h
    exact (List.map_eq_nil_iff.mp h ▸ List.not_mem_nil p) hp
  have hmem : maxByLen (kw.map fun p => p.2) ∈ kw.map (fun p => p.2) :=
    maxByLen_mem hvals
  have hmax : p.2.length ≤ (maxByLen (kw.map fun p => p.2)).length :=
    maxByLen_ge (List.mem_map.mpr ⟨p, hp, rfl⟩)
  have hmne : maxByLen (kw.map fun p => p.2) ≠ [] := by
    intro h
    rw [h] at hmax
    exact hpne (List.length_eq_zero.mp (Nat.le_zero.mp hmax))
  have hlt : (stripChars (cutRight (maxByLen (kw.map fun p => p.2)) ov)).length <
      (maxByLen (kw.map fun p => p.2)).length :=
    lt_of_le_of_lt (stripChars_length_le _) (cutRight_length_lt hmne hov)
  exact sumLen_subst_lt _ _ hlt kw hmem

theorem render_allnil {kw : List (String × List Char)} (tmpl : Tmpl)
    (h : ∀ p ∈ kw, p.2 = []) : render tmpl kw = literalChars tmpl := by
  induction tmpl with
  | nil => rfl
  | cons part t ih =>
    cases part with
    | lit s =>
      show s ++ render t kw = s ++ literalChars t
      rw [ih]
    | field k =>
      show ((alookup kw k).getD []) ++ render t kw = literalChars t
      have hv : ((alookup kw k).getD []) = [] := by
        rcases he : alookup kw k with _ | v
        · rfl
        · rcases alookup_mem he with ⟨p, hp, hpv⟩
          simp [← hpv, h p hp]
      rw [hv, List.nil_append, ih]

theorem fmtLoop_terminates (tmpl : Tmpl) (hlit : literalLen tmpl ≤ charLimit) :
    ∀ n : Nat, ∀ kw : List (String × List Char), ∀ f : List Char,
      sumLen kw < n → (sumLen kw = 0 → f.length ≤ charLimit) →
      ∃ r, fmtLoop tmpl n kw f = some r ∧ r.length ≤ charLimit := by
  intro n
  induction n with
  | zero => intro kw f h _; exact absurd h (Nat.not_lt_zero _)
  | succ n ih =>
    intro kw f hn hzero
    by_cases hf : f.length ≤ charLimit
    · exact ⟨f, by simp [fmtLoop, hf], hf⟩
    · have hs : sumLen kw ≠ 0 := fun h0 => hf (hzero h0)
      cases kw with
      | nil => exact absurd rfl hs
      | cons p kws =>
        have hov : 0 < f.length - charLimit :=
          Nat.sub_pos_of_lt (lt_of_not_le hf)
        have hlt : sumLen (shortenStep (p :: kws) (f.length - charLimit)) <
            sumLen (p :: kws) := shortenStep_sumLen_lt hs hov
        have hrec := ih (shortenStep (p :: kws) (f.length - charLimit))
          (render tmpl (shortenStep (p :: kws) (f.length - charLimit)))
          (lt_of_lt_of_le hlt (Nat.lt_succ_iff.mp hn))
          (by
            intro h0
            rw [render_allnil tmpl (sumLen_eq_zero h0)]
            exact hlit)
        rcases hrec with ⟨r, hr, hrl⟩
        refine ⟨r, ?_, hrl⟩
        simp only [fmtLoop, hf, if_false]
        exact hr

set_option maxRecDepth 16000

/-! ## C2: length invariant of the sanitizer -/

/-- C2 (amended): for every template whose literal (non-placeholder) text
is at most 128 characters, and every metadata mapping,
`SanitizedFilenameTmpl.format` terminates and returns a filename of
length at most 128. -/
theorem c2_length_invariant (tmpl : Tmpl) (kwargs : List (String × String))
    (hlit : literalLen tmpl ≤ charLimit) :
    ∃ r, formatTmpl tmpl kwargs = some r ∧ r.length ≤ charLimit := by
  have h := fmtLoop_terminates tmpl hlit (sumLen (sanitizedKwargs tmpl kwargs) + 1)
    (sanitizedKwargs tmpl kwargs) (candidate tmpl kwargs)
    (Nat.lt_succ_self _)
    (by
      intro h0
      rw [candidate, render_allnil tmpl (sumLen_eq_zero h0)]
      exact le_trans (collapseSpaces_length_le _) hlit)
  rcases h with ⟨r, hr, hrl⟩
  refine ⟨stripChars r, ?_, le_trans (stripChars_length_le _) hrl⟩
  rw [formatTmpl, formatWithFuel, hr]
  rfl

/-- Witness for `c2_length_invariant` at the deployed template and
concrete metadata. -/
theorem c2_length_invariant_check :
    literalLen ydlTmpl ≤ charLimit ∧
    ∃ r, formatTmpl ydlTmpl [("title", "An Example Video"), ("id", "abc123")] =
        some r ∧ r.length ≤ charLimit :=
  ⟨by decide, c2_length_invariant ydlTmpl
    [("title", "An Example Video"), ("id", "abc123")] (by decide)⟩

/-- The length-reduction loop makes no progress when the longest
sanitized field is already empty but the literal text alone exceeds the
limit: the loop state is a fixed point. -/
theorem c2_loop_stuck :
    ∀ n : Nat, fmtLoop [TmplPart.lit (List.replicate 129 'x'), TmplPart.field "a"]
      n [("a", [])] (List.replicate 129 'x') = none := by
  intro n
  induction n with
  | zero => rfl
  | succ n ih =>
    have h1 : ¬((List.replicate 129 'x' : List Char).length ≤ charLimit) := by decide
    simp only [fmtLoop, h1, if_false]
    show fmtLoop _ n (shortenStep [("a", [])] ((List.replicate 129 'x' : List Char).length - charLimit))
      (render _ (shortenStep [("a", [])] ((List.replicate 129 'x' : List Char).length - charLimit))) = none
    have h2 : shortenStep [("a", ([] : List Char))]
        ((List.replicate 129 'x' : List Char).length - charLimit) = [("a", [])] := by decide
    rw [h2]
    have h3 : render [TmplPart.lit (List.replicate 129 'x'), TmplPart.field "a"]
        [("a", ([] : List Char))] = List.replicate 129 'x' := by decide
    rw [h3]
    exact ih

/-- C2 counterexample: the claim states termination for *every* template
and metadata mapping.  For a template whose literal text is 129
characters and whose only field sanitizes to the empty string, the
length-reduction loop never terminates (no amount of fuel produces a
result), so `format` neither terminates nor returns a short filename. -/
theorem c2_counterexample :
    ¬ ∃ fuel r, formatWithFuel
      [TmplPart.lit (List.replicate 129 'x'), TmplPart.field "a"] [] fuel = some r := by
  rintro ⟨fuel, r, h⟩
  have hs : sanitizedKwargs
      [TmplPart.lit (List.replicate 129 'x'), TmplPart.field "a"] [] = [("a", [])] := by
    decide
  have hc : candidate [TmplPart.lit (List.replicate 129 'x'), TmplPart.field "a"] [] =
      List.replicate 129 'x' := by decide
  rw [formatWithFuel, hs, hc, c2_loop_stuck fuel] at h
  exact Option.noConfusion h

/-! ## C3: whitelist and double-space invariants -/

theorem sanitizeVal_whitelisted {c : Char} {v : List Char}
    (h : c ∈ sanitizeVal v) : c ∈ whitelist := by
  have h1 := stripChars_subset h
  have h2 := List.mem_filter.mp h1
  exact decide_eq_true_eq.mp h2.2

theorem shortenStep_whitelisted {kw : List (String × List Char)} {ov : Nat}
    (h : ∀ p ∈ kw, ∀ c ∈ p.2, c ∈ whitelist) :
    ∀ p ∈ shortenStep kw ov, ∀ c ∈ p.2, c ∈ whitelist := by
  intro p hp c hc
  rcases List.mem_map.mp hp with ⟨q, hq, hqp⟩
  by_cases hqm : q.2 = maxByLen (kw.map fun p => p.2)
  · simp only [shortenStep, hqm, if_true] at hqp
    rw [← hqp] at hc
    simp only at hc
    have hcm : c ∈ maxByLen (kw.map fun p => p.2) :=
      cutRight_subset (stripChars_subset hc)
    rw [← hqm] at hcm
    exact h q hq c hcm
  · simp only [shortenStep, hqm, if_false] at hqp
    rw [← hqp] at hc
    exact h q hq c hc

theorem render_chars {c : Char} {tmpl : Tmpl} {kw : List (String × List Char)}
    (h : c ∈ render tmpl kw) :
    c ∈ literalChars tmpl ∨ ∃ p ∈ kw, c ∈ p.2 := by
  induction tmpl with
  | nil => simp only [render, List.foldr_nil] at h; simp at h
  | cons part t ih =>
    cases part with
    | lit s =>
      have hh : c ∈ s ++ render t kw := h
      rcases List.mem_append.mp hh with h1 | h2
      · exact Or.inl (List.mem_append.mpr (Or.inl h1))
      · rcases ih h2 with h3 | h3
        · exact Or.inl (List.mem_append.mpr (Or.inr h3))
        · exact Or.inr h3
    | field k =>
      have hh : c ∈ ((alookup kw k).getD []) ++ render t kw := h
      rcases List.mem_append.mp hh with h1 | h2
      · rcases he : alookup kw k with _ | v
        · rw [he] at h1; simp at h1
        · rw [he] at h1
          rcases alookup_mem he with ⟨p, hp, hpv⟩
          exact Or.inr ⟨p, hp, hpv ▸ h1⟩
      · exact ih h2

theorem fmtLoop_chars (tmpl : Tmpl) :
    ∀ n : Nat, ∀ kw : List (String × List Char), ∀ f r : List Char,
      (∀ p ∈ kw, ∀ c ∈ p.2, c ∈ whitelist) →
      (∀ c ∈ f, c ∈ whitelist ∨ c ∈ literalChars tmpl) →
      fmtLoop tmpl n kw f = some r →
      ∀ c ∈ r, c ∈ whitelist ∨ c ∈ literalChars tmpl := by
  intro n
  induction n with
  | zero => intro kw f r _ _ h; exact absurd h (by simp [fmtLoop])
  | succ n ih =>
    intro kw f r hkw hf h
    by_cases hle : f.length ≤ charLimit
    · simp only [fmtLoop, hle, if_true, Option.some_inj] at h
      exact h ▸ hf
    · cases kw with
      | nil => simp [fmtLoop, hle] at h
      | cons p kws =>
        simp only [fmtLoop, hle, if_false] at h
        refine ih (shortenStep (p :: kws) (f.length - charLimit))
          (render tmpl (shortenStep (p :: kws) (f.length - charLimit))) r
          (shortenStep_whitelisted hkw) ?_ h
        intro c hc
        rcases render_chars hc with h1 | ⟨q, hq, hqc⟩
        · exact Or.inr h1
        · exact Or.inl (shortenStep_whitelisted hkw q hq c hqc)

/-- C3 (amended): every character of a filename returned by the sanitizer
is either in the declared whitelist or is a literal (non-placeholder)
character of the template — the template text itself is not filtered.
The no-double-space property holds whenever no length reduction is
needed (the candidate already fits the limit); the length-reduction
re-substitution can otherwise reintroduce double spaces. -/
theorem c3_whitelist_invariant (tmpl : Tmpl) (kwargs : List (String × String))
    (r : List Char) (h : formatTmpl tmpl kwargs = some r) :
    (∀ c ∈ r, c ∈ whitelist ∨ c ∈ literalChars tmpl) ∧
    ((candidate tmpl kwargs).length ≤ charLimit → hasDblSpace r = false) := by
  rw [formatTmpl, formatWithFuel] at h
  rcases he : fmtLoop tmpl (sumLen (sanitizedKwargs tmpl kwargs) + 1)
      (sanitizedKwargs tmpl kwargs) (candidate tmpl kwargs) with _ | r0
  · rw [he] at h; exact absurd h (by simp)
  · rw [he] at h
    have h : stripChars r0 = r := by simpa using h
    constructor
    · intro c hc
      have hkw : ∀ p ∈ sanitizedKwargs tmpl kwargs, ∀ ch ∈ p.2, ch ∈ whitelist := by
        intro p hp ch hch
        rcases List.mem_map.mp hp with ⟨k, _, hk⟩
        rw [← hk] at hch
        exact sanitizeVal_whitelisted hch
      have hcand : ∀ ch ∈ candidate tmpl kwargs,
          ch ∈ whitelist ∨ ch ∈ literalChars tmpl := by
        intro ch hch
        rcases render_chars (collapseSpaces_subset hch) with h1 | ⟨p, hp, hpc⟩
        · exact Or.inr h1
        · exact Or.inl (hkw p hp ch hpc)
      refine fmtLoop_chars tmpl _ _ _ r0 hkw hcand he c (stripChars_subset ?_)
      rw [h]
      exact hc
    · intro hle
      have hr0 : r0 = candidate tmpl kwargs := by
        simp only [fmtLoop, hle, if_true, Option.some_inj] at he
        exact he.symm
      rw [← h, hr0]
      exact hasDblSpace_stripChars (collapseSpaces_noDbl _)

/-- Witness for `c3_whitelist_invariant` at the deployed template. -/
theorem c3_whitelist_invariant_check :
    formatTmpl ydlTmpl [("title", "Cafe"), ("id", "abc123")] =
        some "Cafe [abc123]".toList ∧
    ((∀ c ∈ "Cafe [abc123]".toList,
        c ∈ whitelist ∨ c ∈ literalChars ydlTmpl) ∧
      ((candidate ydlTmpl [("title", "Cafe"), ("id", "abc123")]).length ≤ charLimit →
        hasDblSpace "Cafe [abc123]".toList = false)) :=
  ⟨by decide, c3_whitelist_invariant ydlTmpl [("title", "Cafe"), ("id", "abc123")]
    "Cafe [abc123]".toList (by decide)⟩

/-- C3 counterexample: the deployed template `'{title} [{id}]'` itself
contains the brackets, which are not in the whitelist, so even ordinary
metadata yields a filename with non-whitelisted characters. -/
theorem c3_counterexample :
    formatTmpl ydlTmpl [("title", "Cafe"), ("id", "abc123")] =
        some "Cafe [abc123]".toList ∧
    '[' ∈ "Cafe [abc123]".toList ∧ '[' ∉ whitelist := by
  refine ⟨by decide, by decide, by decide⟩

/-! ## C4: the length-reduction step -/

/-- C4 (amended): in each iteration of length reduction, the picked value
is a value of the mapping of maximal length (Python `max` picks the first
maximal one deterministically); every entry whose value *equals* the
picked value is replaced by the picked value cut by the overflow amount
from its end and trimmed of trailing whitespace, and every entry with a
different value — including tied entries of equal length but different
content — is left unchanged; when the picked value is nonempty the
replacement is strictly shorter. -/
theorem c4_truncation_step (kw : List (String × List Char)) (ov : Nat)
    (hkw : kw ≠ []) (hov : 0 < ov) :
    maxByLen (kw.map fun p => p.2) ∈ kw.map (fun p => p.2) ∧
    (∀ p ∈ kw, p.2.length ≤ (maxByLen (kw.map fun p => p.2)).length) ∧
    (∀ i : Nat, (shortenStep kw ov)[i]? = (kw[i]?).map fun p =>
        if p.2 = maxByLen (kw.map fun p => p.2)
        then (p.1, stripChars (cutRight (maxByLen (kw.map fun p => p.2)) ov))
        else p) ∧
    (maxByLen (kw.map fun p => p.2) ≠ [] →
      (stripChars (cutRight (maxByLen (kw.map fun p => p.2)) ov)).length <
        (maxByLen (kw.map fun p => p.2)).length) := by
  refine ⟨maxByLen_mem ?_, ?_, ?_, ?_⟩
  · intro h
    exact hkw (List.map_eq_nil_iff.mp h)
  · intro p hp
    exact maxByLen_ge (List.mem_map.mpr ⟨p, hp, rfl⟩)
  · intro i
    exact List.getElem?_map _ _ _
  · intro hne
    exact lt_of_le_of_lt (stripChars_length_le _) (cutRight_length_lt hne hov)

/-- Witness for `c4_truncation_step` at a concrete mapping. -/
theorem c4_truncation_step_check :
    ([("a", "zzzz".toList)] : List (String × List Char)) ≠ [] ∧ 0 < 1 ∧
    (maxByLen ([("a", "zzzz".toList)].map fun p => p.2) ∈
        ([("a", "zzzz".toList)] : List (String × List Char)).map (fun p => p.2) ∧
      (∀ p ∈ ([("a", "zzzz".toList)] : List (String × List Char)),
        p.2.length ≤ (maxByLen ([("a", "zzzz".toList)].map fun p => p.2)).length) ∧
      (∀ i : Nat, (shortenStep [("a", "zzzz".toList)] 1)[i]? =
        (([("a", "zzzz".toList)] : List (String × List Char))[i]?).map fun p =>
          if p.2 = maxByLen ([("a", "zzzz".toList)].map fun p => p.2)
          then (p.1, stripChars (cutRight (maxByLen ([("a", "zzzz".toList)].map fun p => p.2)) 1))
          else p) ∧
      (maxByLen ([("a", "zzzz".toList)].map fun p => p.2) ≠ [] →
        (stripChars (cutRight (maxByLen ([("a", "zzzz".toList)].map fun p => p.2)) 1)).length <
          (maxByLen ([("a", "zzzz".toList)].map fun p => p.2)).length)) :=
  ⟨by decide, by decide, c4_truncation_step [("a", "zzzz".toList)] 1 (by decide) (by decide)⟩

/-- C4 counterexample: with two fields holding the *same* 65-character
value and a 2-character overflow, the reduction step truncates *both*
fields in the same iteration — not exactly one with the tied field left
unchanged. -/
theorem c4_counterexample :
    (render [TmplPart.field "a", TmplPart.field "b"]
        [("a", List.replicate 65 'z'), ("b", List.replicate 65 'z')]).length = 130 ∧
    130 > charLimit ∧
    shortenStep [("a", List.replicate 65 'z'), ("b", List.replicate 65 'z')]
        (130 - charLimit) =
      [("a", List.replicate 63 'z'), ("b", List.replicate 63 'z')] ∧
    ¬((List.zip [("a", List.replicate 65 'z'), ("b", List.replicate 65 'z')]
        (shortenStep [("a", List.replicate 65 'z'), ("b", List.replicate 65 'z')]
          (130 - charLimit))).countP
        (fun pq => decide (pq.1.2 ≠ pq.2.2)) ≤ 1) := by
  refine ⟨by decide, by decide, by decide, by decide⟩

/-! ## C1 and C8: worker lifecycle and failure isolation -/

theorem dl_worker_attempts (eff : Eff) (uidOf : String → Option Nat) :
    ∀ q : List QItem, ∀ fs : List String,
      attempts (dl_worker eff uidOf q fs).events = pendingJobs q := by
  intro q
  induction q with
  | nil => intro fs; rfl
  | cons item rest ih =>
    intro fs
    cases item with
    | tuple3None => rfl
    | tuple2None =>
      show attempts (WEvent.unpackError :: (dl_worker eff uidOf rest fs).events) =
        pendingJobs rest
      rw [attempts, ih fs]
    | job j =>
      show attempts ((processJob eff uidOf fs j).2 ::
          (dl_worker eff uidOf rest (processJob eff uidOf fs j).1).events) =
        j :: pendingJobs rest
      have hev : (processJob eff uidOf fs j).2 = WEvent.done j ∨
          (processJob eff uidOf fs j).2 = WEvent.failed j := by
        simp only [processJob]
        by_cases hd : eff.download j = true
        · rw [if_pos hd]
          by_cases hc : ((uidOf j.username).isSome && !eff.chown j) = true
          · rw [if_pos hc]
            exact Or.inr rfl
          · rw [if_neg hc]
            exact Or.inl rfl
        · rw [if_neg hd]
          exact Or.inr rfl
      rcases hev with h1 | h1
      · rw [h1, attempts, ih]
      · rw [h1, attempts, ih]

theorem dl_worker_running_of_no_sentinel (eff : Eff) (uidOf : String → Option Nat) :
    ∀ q : List QItem, ∀ fs : List String, QItem.tuple3None ∉ q →
      (dl_worker eff uidOf q fs).status = WStatus.Running := by
  intro q
  induction q with
  | nil => intro fs _; rfl
  | cons item rest ih =>
    intro fs hq
    cases item with
    | tuple3None => exact absurd (List.mem_cons_self _ _) hq
    | tuple2None =>
      show (dl_worker eff uidOf rest fs).status = WStatus.Running
      exact ih fs (fun h => hq (List.mem_cons_of_mem _ h))
    | job j =>
      show (dl_worker eff uidOf rest (processJob eff uidOf fs j).1).status =
        WStatus.Running
      exact ih _ (fun h => hq (List.mem_cons_of_mem _ h))

/-- C1: the actual poison pill enqueued by `main` is the 2-tuple
`(None, None)`, but the worker unpacks every queue item into three
variables, so the pill raises `ValueError`, which the catch-all handler
swallows — the worker stays `Running` and never observes a sentinel
(`dl_thread.join()` never returns).  A 3-tuple with `ydl = None`, which
is what the loop's `if ydl is None: return` is written for, would stop
the worker. -/
theorem c1_pill_leaves_worker_running :
    dl_worker ⟨fun _ => true, fun _ => true⟩ (fun _ => none)
        [QItem.tuple2None] [] =
      ⟨WStatus.Running, [], [WEvent.unpackError]⟩ ∧
    dl_worker ⟨fun _ => true, fun _ => true⟩ (fun _ => none)
        [QItem.tuple3None] [] =
      ⟨WStatus.Stopped, [], []⟩ ∧
    WStatus.Running ≠ WStatus.Stopped :=
  ⟨rfl, rfl, by decide⟩

/-- C8: a failed download of job `j` produces a `failed` event, the
worker still attempts `j` and every later job before any sentinel, and
the failure never terminates the worker (its status stays `Running`
when no 3-tuple sentinel is queued). -/
theorem c8_failure_isolation (eff : Eff) (uidOf : String → Option Nat)
    (fs : List String) (j : JobData) (rest : List QItem)
    (hfail : eff.download j = false) :
    (dl_worker eff uidOf (QItem.job j :: rest) fs).events.head? =
      some (WEvent.failed j) ∧
    attempts (dl_worker eff uidOf (QItem.job j :: rest) fs).events =
      j :: pendingJobs rest ∧
    (QItem.tuple3None ∉ rest →
      (dl_worker eff uidOf (QItem.job j :: rest) fs).status = WStatus.Running) := by
  have hev : (processJob eff uidOf fs j).2 = WEvent.failed j := by
    have hnd : ¬(eff.download j = true) := by simp [hfail]
    simp only [processJob]
    rw [if_neg hnd]
  refine ⟨?_, ?_, ?_⟩
  · show ((processJob eff uidOf fs j).2 ::
        (dl_worker eff uidOf rest (processJob eff uidOf fs j).1).events).head? = _
    rw [hev]
    rfl
  · exact dl_worker_attempts eff uidOf (QItem.job j :: rest) fs
  · intro hrest
    exact dl_worker_running_of_no_sentinel eff uidOf (QItem.job j :: rest) fs
      (by
        intro h
        rcases List.mem_cons.mp h with h1 | h2
        · exact QItem.noConfusion h1
        · exact hrest h2)

/-- Witness for `c8_failure_isolation`: a failing download of one job,
with one further job queued behind it. -/
theorem c8_failure_isolation_check :
    (Eff.mk (fun _ => false) (fun _ => true)).download
        ⟨"./a.mp4", "u", "http://a", "f", []⟩ = false ∧
    ((dl_worker (Eff.mk (fun _ => false) (fun _ => true)) (fun _ => none)
        (QItem.job ⟨"./a.mp4", "u", "http://a", "f", []⟩ ::
          [QItem.job ⟨"./b.mp4", "u", "http://b", "f", []⟩]) []).events.head? =
      some (WEvent.failed ⟨"./a.mp4", "u", "http://a", "f", []⟩) ∧
    attempts (dl_worker (Eff.mk (fun _ => false) (fun _ => true)) (fun _ => none)
        (QItem.job ⟨"./a.mp4", "u", "http://a", "f", []⟩ ::
          [QItem.job ⟨"./b.mp4", "u", "http://b", "f", []⟩]) []).events =
      ⟨"./a.mp4", "u", "http://a", "f", []⟩ ::
        pendingJobs [QItem.job ⟨"./b.mp4", "u", "http://b", "f", []⟩] ∧
    (QItem.tuple3None ∉ [QItem.job ⟨"./b.mp4", "u", "http://b", "f", []⟩] →
      (dl_worker (Eff.mk (fun _ => false) (fun _ => true)) (fun _ => none)
        (QItem.job ⟨"./a.mp4", "u", "http://a", "f", []⟩ ::
          [QItem.job ⟨"./b.mp4", "u", "http://b", "f", []⟩]) []).status =
        WStatus.Running)) :=
  ⟨rfl, c8_failure_isolation (Eff.mk (fun _ => false) (fun _ => true))
    (fun _ => none) [] ⟨"./a.mp4", "u", "http://a", "f", []⟩
    [QItem.job ⟨"./b.mp4", "u", "http://b", "f", []⟩] rfl⟩

/-! ## C10: deletion of an existing destination before download -/

/-- C10: when a job's destination path already exists as a regular file,
the worker deletes it before invoking the download; hence when the
download fails, the event is `failed` and no file remains at the
destination path (the failed download is modelled as leaving the
filesystem untouched, per the extractor boundary). -/
theorem c10_failed_redownload_removes_file (eff : Eff)
    (uidOf : String → Option Nat) (fs : List String) (j : JobData)
    (hex : j.outtmpl ∈ fs) (hfail : eff.download j = false) :
    j.outtmpl ∉ (processJob eff uidOf fs j).1 ∧
    (processJob eff uidOf fs j).2 = WEvent.failed j := by
  have hnd : ¬(eff.download j = true) := by simp [hfail]
  constructor
  · simp only [processJob]
    rw [if_neg hnd, if_pos hex]
    intro hmem
    have h2 := (List.mem_filter.mp hmem).2
    simp at h2
  · simp only [processJob]
    rw [if_neg hnd]

/-- Witness for `c10_failed_redownload_removes_file`. -/
theorem c10_failed_redownload_removes_file_check :
    ("./a.mp4" : String) ∈ ["./a.mp4", "./other.mp3"] ∧
    (Eff.mk (fun _ => false) (fun _ => true)).download
      ⟨"./a.mp4", "u", "http://a", "f", []⟩ = false ∧
    (("./a.mp4" : String) ∉ (processJob (Eff.mk (fun _ => false) (fun _ => true))
        (fun _ => none) ["./a.mp4", "./other.mp3"]
        ⟨"./a.mp4", "u", "http://a", "f", []⟩).1 ∧
      (processJob (Eff.mk (fun _ => false) (fun _ => true)) (fun _ => none)
        ["./a.mp4", "./other.mp3"] ⟨"./a.mp4", "u", "http://a", "f", []⟩).2 =
        WEvent.failed ⟨"./a.mp4", "u", "http://a", "f", []⟩) :=
  ⟨by decide, rfl, c10_failed_redownload_removes_file
    (Eff.mk (fun _ => false) (fun _ => true)) (fun _ => none)
    ["./a.mp4", "./other.mp3"] ⟨"./a.mp4", "u", "http://a", "f", []⟩
    (by decide) rfl⟩

/-! ## C9: failed metadata resolution -/

/-- C9 (amended): when the synchronous `extract_info` call fails, the
descriptor has `success: false` and `outfile: None`, the queue is left
unchanged (no job enqueued) — but the descriptor carries *no* error
message: the dict returned by `submit_download` has no `"error"` key
(the exception is only logged). -/
theorem c9_resolution_failure (defaultPreset : String)
    (outdirs : List (String × String)) (e : String)
    (username url preset : String) (q : List QItem) :
    alookup (submit_download defaultPreset outdirs (Except.error e)
        username url preset q).1 "success" = some (RVal.b false) ∧
    alookup (submit_download defaultPreset outdirs (Except.error e)
        username url preset q).1 "outfile" = some RVal.null ∧
    alookup (submit_download defaultPreset outdirs (Except.error e)
        username url preset q).1 "error" = none ∧
    (submit_download defaultPreset outdirs (Except.error e)
        username url preset q).2 = q := by
  refine ⟨rfl, rfl, rfl, rfl⟩

/-- C9 counterexample: the claim says the failure descriptor carries an
error message; at a concrete failed resolution the returned dict has no
`"error"` entry at all (while `success` is `false` and the queue is
unchanged). -/
theorem c9_counterexample :
    alookup (submit_download "normalmp4" [("youtube-dl", "./")]
        (Except.error "DownloadError") "youtube-dl" "http://example.com/v"
        "normalmp4" []).1 "success" = some (RVal.b false) ∧
    (submit_download "normalmp4" [("youtube-dl", "./")]
        (Except.error "DownloadError") "youtube-dl" "http://example.com/v"
        "normalmp4" []).2 = [] ∧
    ¬(alookup (submit_download "normalmp4" [("youtube-dl", "./")]
        (Except.error "DownloadError") "youtube-dl" "http://example.com/v"
        "normalmp4" []).1 "error").isSome := by
  refine ⟨rfl, rfl, by decide⟩

/-! ## C5: unknown preset fallback -/

/-- C5 (amended): with the shipped default preset `normalmp4`, a
submission with an unknown preset token behaves exactly like one with
the default token (same format selector in the descriptor, identical
enqueued job — format, postprocessors, destination path — and the
submission succeeds); the only difference is the echoed `preset` field.
In general an unknown token inherits only the *format selector* from the
configured default, while the postprocessors are always `[]` and the
extension always `mp4`, which agree with the default preset's settings
only for the mp4 presets. -/
theorem c5_unknown_preset_default (preset : String)
    (hf : alookup FORMATS preset = none)
    (he : alookup EXTENSIONS preset = none) (hp : preset ≠ "mp3")
    (outdirs : List (String × String)) (info : Info) (username url : String)
    (q : List QItem) :
    (submit_download "normalmp4" outdirs (Except.ok info) username url preset q).2 =
      (submit_download "normalmp4" outdirs (Except.ok info) username url
        "normalmp4" q).2 ∧
    alookup (submit_download "normalmp4" outdirs (Except.ok info) username url
        preset q).1 "format" =
      alookup (submit_download "normalmp4" outdirs (Except.ok info) username url
        "normalmp4" q).1 "format" ∧
    alookup (submit_download "normalmp4" outdirs (Except.ok info) username url
        preset q).1 "outfile" =
      alookup (submit_download "normalmp4" outdirs (Except.ok info) username url
        "normalmp4" q).1 "outfile" ∧
    alookup (submit_download "normalmp4" outdirs (Except.ok info) username url
        preset q).1 "success" = some (RVal.b true) := by
  have hpost : POSTPROCESSORS preset = POSTPROCESSORS "normalmp4" := by
    rw [POSTPROCESSORS, POSTPROCESSORS, if_neg hp]
    rfl
  refine ⟨?_, ?_, ?_, rfl⟩
  · simp only [submit_download, hf, he, hpost]
    rfl
  · simp only [submit_download, hf]
    rfl
  · simp only [submit_download, hf, he]
    rfl

/-- Witness for `c5_unknown_preset_default` at a concrete unknown
token. -/
theorem c5_unknown_preset_default_check :
    alookup FORMATS "doesnotexist" = none ∧
    alookup EXTENSIONS "doesnotexist" = none ∧
    ("doesnotexist" : String) ≠ "mp3" ∧
    ((submit_download "normalmp4" [("u", "./")] (Except.ok ⟨"Title", "vid01"⟩)
        "u" "http://x" "doesnotexist" []).2 =
      (submit_download "normalmp4" [("u", "./")] (Except.ok ⟨"Title", "vid01"⟩)
        "u" "http://x" "normalmp4" []).2 ∧
    alookup (submit_download "normalmp4" [("u", "./")]
        (Except.ok ⟨"Title", "vid01"⟩) "u" "http://x" "doesnotexist" []).1
        "format" =
      alookup (submit_download "normalmp4" [("u", "./")]
        (Except.ok ⟨"Title", "vid01"⟩) "u" "http://x" "normalmp4" []).1
        "format" ∧
    alookup (submit_download "normalmp4" [("u", "./")]
        (Except.ok ⟨"Title", "vid01"⟩) "u" "http://x" "doesnotexist" []).1
        "outfile" =
      alookup (submit_download "normalmp4" [("u", "./")]
        (Except.ok ⟨"Title", "vid01"⟩) "u" "http://x" "normalmp4" []).1
        "outfile" ∧
    alookup (submit_download "normalmp4" [("u", "./")]
        (Except.ok ⟨"Title", "vid01"⟩) "u" "http://x" "doesnotexist" []).1
        "success" = some (RVal.b true)) :=
  ⟨by decide, by decide, by decide,
    c5_unknown_preset_default "doesnotexist" (by decide) (by decide) (by decide)
      [("u", "./")] ⟨"Title", "vid01"⟩ "u" "http://x" []⟩

/-- C5 counterexample: with the configured default preset `mp3`, a
submission with an unknown token does *not* behave as if the default had
been given: the enqueued job carries the default's format selector but
an empty postprocessor list (the default's is the FFmpeg audio
extractor) and an `.mp4` destination (the default's extension is
`mp3`). -/
theorem c5_counterexample :
    (submit_download "mp3" [("u", "./")] (Except.ok ⟨"Title", "vid01"⟩)
        "u" "http://x" "doesnotexist" []).2 =
      [QItem.job ⟨"./Title [vid01].mp4", "u", "http://x", "bestaudio/best", []⟩] ∧
    (submit_download "mp3" [("u", "./")] (Except.ok ⟨"Title", "vid01"⟩)
        "u" "http://x" "mp3" []).2 =
      [QItem.job ⟨"./Title [vid01].mp3", "u", "http://x", "bestaudio/best",
        [[("key", "FFmpegExtractAudio"), ("preferredcodec", "mp3"),
          ("preferredquality", "192")]]⟩] ∧
    (submit_download "mp3" [("u", "./")] (Except.ok ⟨"Title", "vid01"⟩)
        "u" "http://x" "doesnotexist" []).2 ≠
      (submit_download "mp3" [("u", "./")] (Except.ok ⟨"Title", "vid01"⟩)
        "u" "http://x" "mp3" []).2 := by
  refine ⟨by decide, by decide, by decide⟩

/-! ## C7: authorization timing -/

/-- C7: an authorization check for an unknown username and one for a
known username with a wrong token both sleep for the fixed one-second
delay and both return the same failure outcome `(False, 1 s slept)`,
indistinguishable to the caller; the delay is skipped only on
success. -/
theorem c7_auth_timing (tokens : List (String × String)) (u1 u2 : String)
    (t1 t2 : Option String) (s : String)
    (h1 : alookup tokens u1 = none)
    (h2 : alookup tokens u2 = some s) (h3 : some s ≠ t2) :
    is_authorized tokens u1 t1 = (false, 1) ∧
    is_authorized tokens u2 t2 = (false, 1) ∧
    is_authorized tokens u1 t1 = is_authorized tokens u2 t2 ∧
    (∀ u tok, alookup tokens u = some tok →
      is_authorized tokens u (some tok) = (true, 0)) := by
  have ha : is_authorized tokens u1 t1 = (false, 1) := by
    rw [is_authorized, h1]
  have hb : is_authorized tokens u2 t2 = (false, 1) := by
    rw [is_authorized, h2]
    simp only [if_neg h3]
  refine ⟨ha, hb, by rw [ha, hb], ?_⟩
  intro u tok h
  rw [is_authorized, h]
  simp

/-- Witness for `c7_auth_timing` with the default `YDL_USERS`
configuration. -/
theorem c7_auth_timing_check :
    alookup [("youtube-dl", "testing")] "alice" = none ∧
    alookup [("youtube-dl", "testing")] "youtube-dl" = some "testing" ∧
    (some "testing" : Option String) ≠ some "wrong" ∧
    (is_authorized [("youtube-dl", "testing")] "alice" none = (false, 1) ∧
    is_authorized [("youtube-dl", "testing")] "youtube-dl" (some "wrong") =
      (false, 1) ∧
    is_authorized [("youtube-dl", "testing")] "alice" none =
      is_authorized [("youtube-dl", "testing")] "youtube-dl" (some "wrong") ∧
    (∀ u tok, alookup [("youtube-dl", "testing")] u = some tok →
      is_authorized [("youtube-dl", "testing")] u (some tok) = (true, 0))) :=
  ⟨by decide, by decide, by decide,
    c7_auth_timing [("youtube-dl", "testing")] "alice" "youtube-dl" none
      (some "wrong") "testing" (by decide) (by decide) (by decide)⟩

/-! ## C6: result route path confinement -/

theorem splitSlash_no_slash :
    ∀ l : List Char, ∀ c ∈ splitSlash l, '/' ∉ c := by
  intro l
  induction l with
  | nil =>
    intro c hc
    simp only [splitSlash] at hc
    rcases List.mem_singleton.mp hc with h
    rw [h]
    simp
  | cons d t ih =>
    intro c hc
    simp only [splitSlash] at hc
    by_cases hd : d = '/'
    · rw [if_pos (by simp [hd])] at hc
      rcases List.mem_cons.mp hc with h1 | h2
      · rw [h1]; simp
      · exact ih c h2
    · rw [if_neg (by simp [hd])] at hc
      rcases he : splitSlash t with _ | ⟨h0, t2⟩
      · rw [he] at hc
        rcases List.mem_singleton.mp hc with h
        rw [h]
        intro hmem
        rcases List.mem_singleton.mp hmem with h1
        exact hd h1.symm
      · rw [he] at hc
        rcases List.mem_cons.mp hc with h1 | h2
        · rw [h1]
          intro hmem
          rcases List.mem_cons.mp hmem with h3 | h4
          · exact hd h3.symm
          · exact ih h0 (he ▸ List.mem_cons_self _ _) h4
        · exact ih c (he ▸ List.mem_cons_of_mem _ h2)

theorem basenameL_no_slash (l : List Char) : '/' ∉ basenameL l := by
  rw [basenameL]
  rcases he : (pathComponents l).getLast? with _ | b
  · simp
  · have hb : b ∈ pathComponents l := by
      rcases List.mem_getLast?_eq_getLast (by rw [he]; rfl : b ∈ (pathComponents l).getLast?)
        with ⟨hne, hbl⟩
      exact hbl ▸ List.getLast_mem hne
    have hb2 : b ∈ splitSlash l := List.mem_of_mem_filter hb
    exact splitSlash_no_slash l b hb2

theorem basenameStr_no_slash (s : String) : '/' ∉ (basenameStr s).toList :=
  basenameL_no_slash s.toList

/-- C6 (amended): for every filename supplied to the result route, only
the final path component of the supplied name is joined to the tenant's
output directory, so the joined path never contains a further separator
and — on any filesystem where the parent directory is not a regular
file — the served file lies in the tenant directory; with
`download=true` the route returns 404 whenever the resolved file does
not exist or its check errs (e.g. a pathologically long name).
Exception (the correction): when the joined path has an empty final
component (e.g. filename `''`, `'.'` or `'/'` with tenant directory
`'./'`), the `with_suffix` call raises an uncaught `ValueError` (HTTP
500, not 404), and an `OSError` from the log-file check in the page
branch is likewise uncaught. -/
theorem c6_basename_confinement (outdirs : List (String × String))
    (isFile : String → Option Bool) (username filename download : String)
    (outdir : String) (hdir : alookup outdirs username = some outdir)
    (hparent : isFile (outdir ++ "..") ≠ some true) :
    (∀ p, result_file outdirs isFile username filename download =
        RouteRes.file p →
      p = outdir ++ basenameStr filename ∧
      '/' ∉ (basenameStr filename).toList ∧
      basenameStr filename ≠ ".." ∧
      isFile p = some true) ∧
    (download = "true" →
      basenameStr (outdir ++ basenameStr filename) ≠ "" →
      isFile (outdir ++ basenameStr filename) ≠ some true →
      result_file outdirs isFile username filename download =
        RouteRes.notFound) := by
  by_cases hempty : basenameStr (outdir ++ basenameStr filename) = ""
  · have hres : result_file outdirs isFile username filename download =
        RouteRes.serverError := by
      simp only [result_file, hdir, hempty, if_pos]
    rw [hres]
    constructor
    · intro p hp
      exact RouteRes.noConfusion hp
    · intro _ hne _
      exact absurd hempty hne
  · rcases hif : isFile (outdir ++ basenameStr filename) with _ | ex
    · have hres : result_file outdirs isFile username filename download =
          RouteRes.notFound := by
        simp [result_file, hdir, hempty, hif]
      rw [hres]
      constructor
      · intro p hp
        exact RouteRes.noConfusion hp
      · intro _ _ _
        rfl
    · by_cases hdl : download = "true"
      · cases ex with
        | true =>
          have hres : result_file outdirs isFile username filename download =
              RouteRes.file (outdir ++ basenameStr filename) := by
            simp [result_file, hdir, hempty, hif, hdl]
          rw [hres]
          constructor
          · intro p hp
            have hpm : outdir ++ basenameStr filename = p :=
              RouteRes.file.inj hp
            refine ⟨hpm.symm, basenameStr_no_slash filename, ?_, hpm ▸ hif⟩
            intro hdd
            rw [hdd] at hif
            exact hparent hif
          · intro _ _ hnotrue
            exact absurd rfl hnotrue
        | false =>
          have hres : result_file outdirs isFile username filename download =
              RouteRes.notFound := by
            simp [result_file, hdir, hempty, hif, hdl]
          rw [hres]
          constructor
          · intro p hp
            exact RouteRes.noConfusion hp
          · intro _ _ _
            rfl
      · constructor
        · intro p hp
          cases ex with
          | true =>
            have hres : result_file outdirs isFile username filename download =
                RouteRes.page false := by
              simp [result_file, hdir, hempty, hif, hdl]
            rw [hres] at hp
            exact RouteRes.noConfusion hp
          | false =>
            rcases hlog : isFile (withSuffixLog (outdir ++ basenameStr filename))
              with _ | lf
            · have hres : result_file outdirs isFile username filename download =
                  RouteRes.serverError := by
                simp [result_file, hdir, hempty, hif, hdl, hlog]
              rw [hres] at hp
              exact RouteRes.noConfusion hp
            · have hres : result_file outdirs isFile username filename download =
                  RouteRes.page lf := by
                simp [result_file, hdir, hempty, hif, hdl, hlog]
              rw [hres] at hp
              exact RouteRes.noConfusion hp
        · intro hd _ _
          exact absurd hd hdl

/-- Witness for `c6_basename_confinement`: a concrete tenant directory,
a filesystem with a single media file, and the traversal attempt of
Scenario E. -/
theorem c6_basename_confinement_check :
    alookup [("u", "/data/u/")] "u" = some "/data/u/" ∧
    (fun p => some (decide (p = "/data/u/clip.mp4"))) ("/data/u/" ++ "..") ≠
      some true ∧
    ((∀ p, result_file [("u", "/data/u/")]
        (fun p => some (decide (p = "/data/u/clip.mp4"))) "u"
        "../../etc/passwd" "true" = RouteRes.file p →
      p = "/data/u/" ++ basenameStr "../../etc/passwd" ∧
      '/' ∉ (basenameStr "../../etc/passwd").toList ∧
      basenameStr "../../etc/passwd" ≠ ".." ∧
      (fun p => some (decide (p = "/data/u/clip.mp4"))) p = some true) ∧
    (("true" : String) = "true" →
      basenameStr ("/data/u/" ++ basenameStr "../../etc/passwd") ≠ "" →
      (fun p => some (decide (p = "/data/u/clip.mp4")))
          ("/data/u/" ++ basenameStr "../../etc/passwd") ≠ some true →
      result_file [("u", "/data/u/")]
        (fun p => some (decide (p = "/data/u/clip.mp4"))) "u"
        "../../etc/passwd" "true" = RouteRes.notFound)) :=
  ⟨by decide, by decide,
    c6_basename_confinement [("u", "/data/u/")]
      (fun p => some (decide (p = "/data/u/clip.mp4"))) "u"
      "../../etc/passwd" "true" "/data/u/" (by decide) (by decide)⟩

/-- C6 counterexample: the claim promises a 404 for every invalid
filename, but a filename whose base component is empty (here `'.'`, with
the default tenant directory `'./'`) makes `with_suffix` raise an
uncaught `ValueError`: the route yields an HTTP 500, not a 404. -/
theorem c6_counterexample :
    result_file [("youtube-dl", "./")] (fun _ => some false) "youtube-dl"
        "." "true" = RouteRes.serverError ∧
    RouteRes.serverError ≠ RouteRes.notFound := by
  refine ⟨by decide, by decide⟩
